import Mathlib

/-!
Verification development for the Authentify product-authentication core.

The TypeScript source is embedded shallowly:
* bytes are `Nat` values kept below 256 (Node `Buffer` cells),
* strings fed to hashes are converted to their UTF-8 bytes,
* the Node `crypto` SHA-256 digest is implemented in full (FIPS 180-4),
* fallible operations return `Except String`, the thrown `Error` message
  being the payload, mirroring the `throw new Error(...)` sites.
-/

set_option maxRecDepth 4096

/-- UTF-8 encoding of a Unicode scalar value, as `Buffer.from(s, "utf8")`
produces per character. -/
def utf8EncodeCharBytes (n : Nat) : List Nat :=
  if n < 128 then [n]
  else if n < 2048 then [192 + n / 64, 128 + n % 64]
  else if n < 65536 then [224 + n / 4096, 128 + (n / 64) % 64, 128 + n % 64]
  else [240 + n / 262144, 128 + (n / 4096) % 64, 128 + (n / 64) % 64, 128 + n % 64]

/-- The UTF-8 bytes of a string, as `Buffer.from(s, "utf8")` /
`crypto.Hash.update(s)` consume it. -/
def strBytes (s : String) : List Nat :=
  s.data.flatMap (fun c => utf8EncodeCharBytes c.toNat)

/-- Lowercase hex digit, as `Buffer.prototype.toString("hex")` emits. -/
def hexDigitChar (n : Nat) : Char :=
  "0123456789abcdef".data.getD n '0'

/-- Two lowercase hex characters of one byte. -/
def byteHexChars (b : Nat) : List Char :=
  [hexDigitChar (b / 16), hexDigitChar (b % 16)]

/-- `buffer.toString("hex")` as a character list. -/
def hexChars (bs : List Nat) : List Char :=
  bs.flatMap byteHexChars

/-- `buffer.toString("hex")`. -/
def hexEncode (bs : List Nat) : String :=
  String.mk (hexChars bs)

/-- Value of a hex digit; Node accepts both cases. -/
def hexVal (c : Char) : Option Nat :=
  let n := c.toNat
  if 48 ≤ n ∧ n ≤ 57 then some (n - 48)
  else if 97 ≤ n ∧ n ≤ 102 then some (n - 87)
  else if 65 ≤ n ∧ n ≤ 70 then some (n - 55)
  else none

/-- `Buffer.from(s, "hex")`: decodes complete hex pairs and stops at the
first invalid character or lone trailing digit (Node's lenient semantics). -/
def hexDecodeAux : List Char → List Nat
  | c1 :: c2 :: rest =>
    match hexVal c1, hexVal c2 with
    | some hi, some lo => (16 * hi + lo) :: hexDecodeAux rest
    | _, _ => []
  | _ => []

/-- `Buffer.from(s, "hex")`. -/
def hexDecode (s : String) : List Nat :=
  hexDecodeAux s.data

/-- `String.prototype.split(".")` on a character list:
`"a.b" ↦ [[a],[b]]`, `"" ↦ [[]]`, `"." ↦ [[],[]]`. -/
def splitChAux : List Char → List (List Char)
  | [] => [[]]
  | c :: rest =>
    if c = '.' then [] :: splitChAux rest
    else
      match splitChAux rest with
      | h :: t => (c :: h) :: t
      | [] => [[c]]

/-- `encryptedData.split(".")`. -/
def splitDot (s : String) : List String :=
  (splitChAux s.data).map String.mk

/-! ## SHA-256 (Node `crypto.createHash("sha256")`) -/

/-- Truncation to a 32-bit word. -/
def w32 (n : Nat) : Nat := n % 4294967296

/-- 32-bit rotate right. -/
def rotr32 (x n : Nat) : Nat := w32 ((x >>> n) ||| (x <<< (32 - n)))

def shaBigSigma0 (x : Nat) : Nat := (rotr32 x 2) ^^^ (rotr32 x 13) ^^^ (rotr32 x 22)

def shaBigSigma1 (x : Nat) : Nat := (rotr32 x 6) ^^^ (rotr32 x 11) ^^^ (rotr32 x 25)

def shaSmallSigma0 (x : Nat) : Nat := (rotr32 x 7) ^^^ (rotr32 x 18) ^^^ (x >>> 3)

def shaSmallSigma1 (x : Nat) : Nat := (rotr32 x 17) ^^^ (rotr32 x 19) ^^^ (x >>> 10)

/-- The 64 SHA-256 round constants. -/
def sha256K : List Nat :=
  [1116352408, 1899447441, 3049323471, 3921009573, 961987163, 1508970993,
   2453635748, 2870763221, 3624381080, 310598401, 607225278, 1426881987,
   1925078388, 2162078206, 2614888103, 3248222580, 3835390401, 4022224774,
   264347078, 604807628, 770255983, 1249150122, 1555081692, 1996064986,
   2554220882, 2821834349, 2952996808, 3210313671, 3336571891, 3584528711,
   113926993, 338241895, 666307205, 773529912, 1294757372, 1396182291,
   1695183700, 1986661051, 2177026350, 2456956037, 2730485921, 2820302411,
   3259730800, 3345764771, 3516065817, 3600352804, 4094571909, 275423344,
   430227734, 506948616, 659060556, 883997877, 958139571, 1322822218,
   1537002063, 1747873779, 1955562222, 2024104815, 2227730452, 2361852424,
   2428436474, 2756734187, 3204031479, 3329325298]

structure Sha256State where
  a : Nat
  b : Nat
  c : Nat
  d : Nat
  e : Nat
  f : Nat
  g : Nat
  hh : Nat
deriving Repr, DecidableEq

/-- SHA-256 initial hash value. -/
def sha256Init : Sha256State :=
  ⟨1779033703, 3144134277, 1013904242, 2773480762,
   1359893119, 2600822924, 528734635, 1541459225⟩

/-- One SHA-256 compression round. -/
def sha256Compress (st : Sha256State) (k w : Nat) : Sha256State :=
  let s1 := shaBigSigma1 st.e
  let ch := (st.e &&& st.f) ^^^ ((st.e ^^^ 4294967295) &&& st.g)
  let temp1 := w32 (st.hh + s1 + ch + k + w)
  let s0 := shaBigSigma0 st.a
  let maj := (st.a &&& st.b) ^^^ (st.a &&& st.c) ^^^ (st.b &&& st.c)
  let temp2 := w32 (s0 + maj)
  ⟨w32 (temp1 + temp2), st.a, st.b, st.c, w32 (st.d + temp1), st.e, st.f, st.g⟩

/-- Extend the 16 message-schedule words to 64 (`fuel = 48` steps). -/
def schedExt : Nat → List Nat → List Nat
  | 0, ws => ws
  | fuel + 1, ws =>
    let len := ws.length
    let nw := w32 (shaSmallSigma1 (ws.getD (len - 2) 0) + ws.getD (len - 7) 0 +
                   shaSmallSigma0 (ws.getD (len - 15) 0) + ws.getD (len - 16) 0)
    schedExt fuel (ws ++ [nw])

/-- Big-endian 32-bit words from bytes (complete groups of four). -/
def bytesToWordsAux : List Nat → List Nat
  | a :: b :: c :: d :: rest => (((a * 256 + b) * 256 + c) * 256 + d) :: bytesToWordsAux rest
  | _ => []

/-- The four big-endian bytes of a 32-bit word. -/
def wordBytes (w : Nat) : List Nat :=
  [(w >>> 24) &&& 255, (w >>> 16) &&& 255, (w >>> 8) &&& 255, w &&& 255]

/-- The eight big-endian bytes of a 64-bit length field. -/
def natToBeBytes8 (n : Nat) : List Nat :=
  [(n >>> 56) &&& 255, (n >>> 48) &&& 255, (n >>> 40) &&& 255, (n >>> 32) &&& 255,
   (n >>> 24) &&& 255, (n >>> 16) &&& 255, (n >>> 8) &&& 255, n &&& 255]

/-- SHA-256 padding: `0x80`, zeros to 56 mod 64, then the bit length. -/
def sha256PadBytes (msg : List Nat) : List Nat :=
  let z := (119 - msg.length % 64) % 64
  msg ++ [128] ++ List.replicate z 0 ++ natToBeBytes8 (8 * msg.length)

/-- Split the padded message into 64-byte blocks (`fuel ≥` block count). -/
def chunksAux : Nat → List Nat → List (List Nat)
  | 0, _ => []
  | _, [] => []
  | fuel + 1, l => l.take 64 :: chunksAux fuel (l.drop 64)

/-- Compress one 512-bit block into the running hash state. -/
def sha256Block (st : Sha256State) (ws : List Nat) : Sha256State :=
  let w64 := schedExt 48 ws
  let fin := (List.zip sha256K w64).foldl (fun s kw => sha256Compress s kw.1 kw.2) st
  ⟨w32 (st.a + fin.a), w32 (st.b + fin.b), w32 (st.c + fin.c), w32 (st.d + fin.d),
   w32 (st.e + fin.e), w32 (st.f + fin.f), w32 (st.g + fin.g), w32 (st.hh + fin.hh)⟩

/-- The SHA-256 digest (32 bytes) of a byte sequence, as
`crypto.createHash("sha256").update(data).digest()` computes it. -/
def sha256Bytes (msg : List Nat) : List Nat :=
  let padded := sha256PadBytes msg
  let blocks := chunksAux padded.length padded
  let fin := blocks.foldl (fun st blk => sha256Block st (bytesToWordsAux blk)) sha256Init
  [fin.a, fin.b, fin.c, fin.d, fin.e, fin.f, fin.g, fin.hh].flatMap wordBytes

/-! ## lib/cryptoUtils.ts -/

/-- `generateKeyStream(secretKey, salt, length)`: SHA-256 of
`secretKey + salt.toString("hex")`, repeated cyclically to `length` bytes
(`keyStream[i] = keyHash[i % keyHash.length]`). -/
def generateKeyStream (secretKey : String) (salt : List Nat) (length : Nat) : List Nat :=
  let keyHash := sha256Bytes (strBytes (secretKey ++ hexEncode salt))
  (List.range length).map (fun i => keyHash.getD (i % keyHash.length) 0)

/-- `rotateLeft(byte, 1)`: `((byte << 1) | (byte >> 7)) & 0xff`. -/
def rotateLeft1 (byte : Nat) : Nat :=
  ((byte <<< 1) ||| (byte >>> 7)) &&& 255

/-- `rotateRight(byte, 1)`: `((byte >> 1) | (byte << 7)) & 0xff`. -/
def rotateRight1 (byte : Nat) : Nat :=
  ((byte >>> 1) ||| (byte <<< 7)) &&& 255

/-- `nibbleSwap(byte)`: `((byte & 0x0f) << 4) | ((byte & 0xf0) >> 4)`. -/
def nibbleSwap (byte : Nat) : Nat :=
  ((byte &&& 15) <<< 4) ||| ((byte &&& 240) >>> 4)

/-- `encryptRound`: XOR with the key byte, rotate left, nibble-swap. -/
def encryptRound (byte keyByte : Nat) : Nat :=
  nibbleSwap (rotateLeft1 (byte ^^^ keyByte))

/-- `decryptRound`: nibble-swap, rotate right, XOR with the key byte. -/
def decryptRound (byte keyByte : Nat) : Nat :=
  rotateRight1 (nibbleSwap byte) ^^^ keyByte

/-- `advancedQHCEncrypt(plainText, secretKey)`.  The source draws
`salt = crypto.randomBytes(8)`; the salt is a parameter here, and the
plaintext stands as its UTF-8 buffer (`Buffer.from(plainText, "utf8")`).
Four rounds apply `encryptRound` to every byte with the same
`keyStream[i]`; output is `salt.hex + "." + cipher.hex`. -/
def advancedQHCEncrypt (plainBytes : List Nat) (secretKey : String) (salt : List Nat) : String :=
  let keyStream := generateKeyStream secretKey salt plainBytes.length
  let cipherBuffer := (fun buf => List.zipWith encryptRound buf keyStream)^[4] plainBytes
  String.mk (hexChars salt ++ '.' :: hexChars cipherBuffer)

/-- `advancedQHCDecrypt(encryptedData, secretKey)`: split on `"."`,
throw `"Invalid encrypted format"` unless exactly two parts, hex-decode
salt and ciphertext, re-derive the key stream and run four
`decryptRound` passes.  The resulting plain buffer is returned at the
byte level (the source finally renders it with `toString("utf8")`). -/
def advancedQHCDecrypt (encryptedData : String) (secretKey : String) :
    Except String (List Nat) :=
  match splitDot encryptedData with
  | [saltHexPart, cipherHexPart] =>
    let salt := hexDecode saltHexPart
    let cipherBuffer := hexDecode cipherHexPart
    let keyStream := generateKeyStream secretKey salt cipherBuffer.length
    .ok ((fun buf => List.zipWith decryptRound buf keyStream)^[4] cipherBuffer)
  | _ => .error "Invalid encrypted format"

/-- The 62-symbol alphabet `"0..9a..zA..Z"` of `base62Encode`. -/
def base62Chars : List Char :=
  "0123456789abcdefghijklmnopqrstuvwxyzABCDEFGHIJKLMNOPQRSTUVWXYZ".data

/-- Digit loop of `base62Encode` (`result = chars[num % 62] + result;
num = num / 62` while `num > 0`); `fuel ≥ num` always suffices. -/
def base62Aux : Nat → Nat → List Char
  | 0, _ => []
  | fuel + 1, num =>
    if num = 0 then []
    else base62Aux fuel (num / 62) ++ [base62Chars.getD (num % 62) '0']

/-- `base62Encode(num)`: `"0"` for zero, else most-significant-first
base-62 digits. -/
def base62Encode (num : Nat) : String :=
  if num = 0 then "0" else String.mk (base62Aux num num)

/-- `signature.padStart(8, "0").slice(0, 8)`. -/
def padTrunc8 (s : String) : String :=
  String.mk ((List.replicate (8 - s.length) '0' ++ s.data).take 8)

/-- `Σ cipherBuffer[i] * (i + 1)` over BigInt (unbounded `Nat` here). -/
def weightedSum (cipherBuffer : List Nat) : Nat :=
  (cipherBuffer.enum.map (fun p => p.2 * (p.1 + 1))).sum

/-- `advancedQDSGenerateSignature(encryptedData, secretKey)`: split on
`"."` (throwing `"Invalid encrypted format"` unless two parts), derive
the key stream sized to the ciphertext, fold the weighted byte sum, XOR
with `keyStream[0]`, base-62 encode, pad/truncate to 8.  When the
ciphertext is empty, `keyStream[0]` is `undefined` and
`BigInt(undefined)` throws a `TypeError` in the source; that branch is
the second error case. -/
def advancedQDSGenerateSignature (encryptedData : String) (secretKey : String) :
    Except String String :=
  match splitDot encryptedData with
  | [saltHexPart, cipherHexPart] =>
    let salt := hexDecode saltHexPart
    let cipherBuffer := hexDecode cipherHexPart
    let keyStream := generateKeyStream secretKey salt cipherBuffer.length
    match cipherBuffer with
    | [] => .error "TypeError: Cannot convert undefined to a BigInt"
    | _ =>
      let hashValue := weightedSum cipherBuffer ^^^ keyStream.getD 0 0
      .ok (padTrunc8 (base62Encode hashValue))
  | _ => .error "Invalid encrypted format"

/-- `advancedQDSVerifySignature(encryptedData, signature, secretKey)`:
recompute the signature and compare with `===`; any exception from the
recomputation propagates (there is no try/catch in the function). -/
def advancedQDSVerifySignature (encryptedData sigStr secretKey : String) :
    Except String Bool :=
  match advancedQDSGenerateSignature encryptedData secretKey with
  | .ok expectedSignature => .ok (expectedSignature == sigStr)
  | .error e => .error e

/-- The verify route's step 1 (`src/app/api/verify/route.ts` lines
42-58): call `advancedQDSVerifySignature` inside try/catch and treat a
thrown error as verification failure. -/
def routeIsAuthentic (encryptedData sigStr secretKey : String) : Bool :=
  match advancedQDSVerifySignature encryptedData sigStr secretKey with
  | .ok b => b
  | .error _ => false

/-- Modelled from the spec (§4.3): the signature formula in the spec's
words — weighted sum `Σ ciphertext[i]*(i+1)`, XOR with `keyStream[0]`,
base-62, left-pad with `'0'`, truncate to exactly 8 characters. -/
def signSpec (salt cipherBuffer : List Nat) (secretKey : String) : String :=
  let keyStream := generateKeyStream secretKey salt cipherBuffer.length
  padTrunc8 (base62Encode (weightedSum cipherBuffer ^^^ keyStream.getD 0 0))

/-- Modelled from the spec (§4.2 failure note): a payload is well formed
when it is exactly two hex segments separated by one `"."` separator. -/
def hexPayloadWellFormed (s : String) : Bool :=
  match splitDot s with
  | [a, b] => a.data.all (fun c => (hexVal c).isSome) && b.data.all (fun c => (hexVal c).isSome)
  | _ => false

/-! ## lib/blockchainUtils.ts -/

/-- The block content fields hashed during mining (the `BlockData`
interface minus the nonce). -/
structure BlockData where
  timestamp : Nat
  product_details_hash : String
  encrypted_data_salt : String
  signature : String
  previous_block_hash : String
deriving Repr, DecidableEq

/-- `calculateHash(data)`: SHA-256 of the UTF-8 bytes, hex encoded. -/
def calculateHash (data : String) : String :=
  hexEncode (sha256Bytes (strBytes data))

/-- `blockDataToString(blockData)`: plain concatenation of the string
forms of `timestamp`, hashes, salt, signature and nonce. -/
def blockDataToString (blockData : BlockData) (nonce : Nat) : String :=
  Nat.repr blockData.timestamp ++ blockData.product_details_hash ++
  blockData.encrypted_data_salt ++ blockData.signature ++
  blockData.previous_block_hash ++ Nat.repr nonce

/-- `calculateBlockHash`. -/
def calculateBlockHash (blockData : BlockData) (nonce : Nat) : String :=
  calculateHash (blockDataToString blockData nonce)

/-- `"0".repeat(difficulty)` as a character list. -/
def targetZeros (difficulty : Nat) : List Char :=
  List.replicate difficulty '0'

/-- The mining loop.  The source increments `nonce` after each failed
attempt and throws once `nonce > 10000000`; `fuel` counts the attempts
still allowed, so `fuel = 0` is exactly the `nonce = 10000001` throw. -/
def mineAux (blockData : BlockData) (difficulty : Nat) : Nat → Nat → Except String (Nat × String)
  | 0, _ => .error "Mining difficulty likely too high or error in logic."
  | fuel + 1, nonce =>
    let hash := calculateBlockHash blockData nonce
    if (targetZeros difficulty).isPrefixOf hash.data then .ok (nonce, hash)
    else mineAux blockData difficulty fuel (nonce + 1)

/-- `mineBlock(blockData, difficulty)`: nonces `0, 1, 2, …` are tried in
order; nonce `10000001` (the 10,000,002nd would-be attempt) triggers the
safety throw, so nonces `0 … 10000000` are attempted. -/
def mineBlock (blockData : BlockData) (difficulty : Nat) : Except String (Nat × String) :=
  mineAux blockData difficulty 10000001 0

/-! ## Ledger model (prisma `BlockchainLedger` + the API routes)

`src/app/api/generate/route.ts` appends blocks; `src/app/api/verify/route.ts`
reads a block by salt and marks it verified.  Timestamps (`Date.now()`,
`new Date()`) are modelled as `Nat` parameters. -/

/-- A persisted `BlockchainLedger` row (the fields the claims concern). -/
structure LedgerBlock where
  timestamp : Nat
  product_details_hash : String
  encrypted_data_salt : String
  signature : String
  previous_block_hash : String
  nonce : Nat
  current_block_hash : String
  isVerified : Bool
  verifiedAt : Option Nat
deriving Repr, DecidableEq

instance : Inhabited LedgerBlock :=
  ⟨⟨0, "", "", "", "", 0, "", false, none⟩⟩

/-- `"0".repeat(64)`, the genesis `previous_block_hash`. -/
def genesisHash : String :=
  String.mk (List.replicate 64 '0')

/-- The generate route's previous-hash read: the chain tip's
`current_block_hash`, or the genesis value when the ledger is empty
(`lastBlock ? lastBlock.current_block_hash : "0".repeat(64)`). -/
def prevHashOf (ledger : List LedgerBlock) : String :=
  match ledger.getLast? with
  | some tip => tip.current_block_hash
  | none => genesisHash

/-- Ledgers reachable by the generate route's append step: read the tip
hash, mine a block referencing it (difficulty is the route's
`BLOCKCHAIN_DIFFICULTY` constant, kept as a parameter), persist it with
`isVerified = false`, `verifiedAt = null` (the schema defaults). -/
inductive LedgerReach (difficulty : Nat) : List LedgerBlock → Prop
  | nil : LedgerReach difficulty []
  | append (ledger : List LedgerBlock) (ts : Nat) (pdh salt sig : String)
      (nonce : Nat) (hash : String) :
      LedgerReach difficulty ledger →
      mineBlock ⟨ts, pdh, salt, sig, prevHashOf ledger⟩ difficulty = .ok (nonce, hash) →
      LedgerReach difficulty
        (ledger ++ [⟨ts, pdh, salt, sig, prevHashOf ledger, nonce, hash, false, none⟩])

/-- The verify route's ledger write (`prisma.blockchainLedger.update`
with `data: { isVerified: true, verifiedAt: new Date() }`): an
unconditional write keyed by the block's id. -/
def markVerified (now : Nat) (block : LedgerBlock) : LedgerBlock :=
  { block with isVerified := true, verifiedAt := some now }

/-- The successive states of one block under a sequence of
`markVerified` writes (the only write to `isVerified` in the system). -/
def statesOf (block : LedgerBlock) : List Nat → List LedgerBlock
  | [] => [block]
  | t :: ts => block :: statesOf (markVerified t block) ts

/-- Adjacent pairs of a state trace. -/
def traceSteps (states : List LedgerBlock) : List (LedgerBlock × LedgerBlock) :=
  states.zip states.tail

/-- Outcomes of the verify route's found-block branch. -/
inductive VerifyOutcome where
  | FirstVerification
  | AlreadyVerified (verifiedAt : Option Nat)
deriving Repr, DecidableEq

/-- One verify request in flight: `snap` is the `findUnique` snapshot,
`result` the outcome it responded with. -/
structure VerifySession where
  snap : Option LedgerBlock
  result : Option VerifyOutcome
deriving Repr, DecidableEq

/-- A fresh session. -/
def VerifySession.start : VerifySession := ⟨none, none⟩

/-- One atomic step of a verify request against the stored block, as the
route performs it: first `findUnique` (take a snapshot), then — deciding
on the *snapshot* — either answer "already verified" or run the
unconditional `update` keyed by id and answer "first verification".
The read and the write are separate steps, exactly as in the source. -/
def verifyStep (now : Nat) (db : LedgerBlock) (s : VerifySession) :
    LedgerBlock × VerifySession :=
  match s.snap, s.result with
  | none, _ => (db, { s with snap := some db })
  | some snapBlock, none =>
    if snapBlock.isVerified then
      (db, { s with result := some (.AlreadyVerified snapBlock.verifiedAt) })
    else
      (markVerified now db, { s with result := some .FirstVerification })
  | some _, some _ => (db, s)

/-- Run two concurrent verify requests (`A`, `B`, with their own clock
readings) under an explicit interleaving: `false` schedules a step of
`A`, `true` a step of `B`. -/
def runSched (tA tB : Nat) : List Bool → LedgerBlock → VerifySession → VerifySession →
    LedgerBlock × VerifySession × VerifySession
  | [], db, a, b => (db, a, b)
  | false :: rest, db, a, b =>
    let (db2, a2) := verifyStep tA db a
    runSched tA tB rest db2 a2 b
  | true :: rest, db, a, b =>
    let (db2, b2) := verifyStep tB db b
    runSched tA tB rest db2 a b2

/-! ## Helper lemmas: bytes, hex and splitting -/

lemma rotateLeft1_lt (x : Nat) : rotateLeft1 x < 256 :=
  Nat.lt_succ_of_le Nat.and_le_right

lemma rotateRight1_lt (x : Nat) : rotateRight1 x < 256 :=
  Nat.lt_succ_of_le Nat.and_le_right

lemma rot_inv : ∀ x < 256, rotateRight1 (rotateLeft1 x) = x := by decide

lemma nibbleSwap_inv : ∀ x < 256, nibbleSwap (nibbleSwap x) = x := by decide

lemma nibbleSwap_lt : ∀ x < 256, nibbleSwap x < 256 := by decide

lemma byte_xor_lt {a b : Nat} (ha : a < 256) (hb : b < 256) : a ^^^ b < 256 :=
  Nat.xor_lt_two_pow (n := 8) ha hb

lemma encryptRound_lt (b k : Nat) : encryptRound b k < 256 :=
  nibbleSwap_lt _ (rotateLeft1_lt _)

/-- One decrypt round undoes one encrypt round on bytes. -/
lemma round_inv (b k : Nat) (hb : b < 256) (hk : k < 256) :
    decryptRound (encryptRound b k) k = b := by
  unfold decryptRound encryptRound
  rw [nibbleSwap_inv _ (rotateLeft1_lt _), rot_inv _ (byte_xor_lt hb hk),
    Nat.xor_assoc, Nat.xor_self, Nat.xor_zero]

lemma hexVal_hexDigitChar : ∀ n < 16, hexVal (hexDigitChar n) = some n := by decide

lemma hexDigitChar_ne_dot (n : Nat) : hexDigitChar n ≠ '.' := by
  by_cases h : n < 16
  · interval_cases n <;> decide
  · unfold hexDigitChar
    rw [List.getD_eq_default]
    · decide
    · simpa using Nat.le_of_not_lt h

lemma dot_not_mem_hexChars (bs : List Nat) : '.' ∉ hexChars bs := by
  intro h
  rw [hexChars, List.mem_flatMap] at h
  obtain ⟨b, _, hc⟩ := h
  simp only [byteHexChars, List.mem_cons, List.not_mem_nil, or_false] at hc
  rcases hc with h | h <;> exact hexDigitChar_ne_dot _ h.symm

lemma hexDecodeAux_hexChars (bs : List Nat) (hb : ∀ b ∈ bs, b < 256) :
    hexDecodeAux (hexChars bs) = bs := by
  induction bs with
  | nil => rfl
  | cons b rest ih =>
    have hblt : b < 256 := hb b (by simp)
    have h1 : b / 16 < 16 := Nat.div_lt_of_lt_mul (by omega)
    have h2 : b % 16 < 16 := Nat.mod_lt _ (by omega)
    show hexDecodeAux (hexDigitChar (b / 16) :: hexDigitChar (b % 16) :: hexChars rest) = _
    rw [hexDecodeAux, hexVal_hexDigitChar _ h1, hexVal_hexDigitChar _ h2]
    simp only [ih (fun x hx => hb x (by simp [hx]))]
    congr 1
    omega

lemma splitChAux_ne_nil (l : List Char) : splitChAux l ≠ [] := by
  induction l with
  | nil => simp [splitChAux]
  | cons c rest ih =>
    rw [splitChAux]
    split
    · simp
    · rcases h : splitChAux rest with _ | ⟨hd, tl⟩
      · exact absurd h ih
      · simp

lemma splitChAux_no_dot (l : List Char) (h : '.' ∉ l) : splitChAux l = [l] := by
  induction l with
  | nil => rfl
  | cons c rest ih =>
    have hc : ¬(c = '.') := fun hc => h (by simp [hc])
    rw [splitChAux, if_neg hc, ih (fun hm => h (by simp [hm]))]

lemma splitChAux_append_dot (xs ys : List Char) (h : '.' ∉ xs) :
    splitChAux (xs ++ '.' :: ys) = xs :: splitChAux ys := by
  induction xs with
  | nil => simp [splitChAux]
  | cons x rest ih =>
    have hx : ¬(x = '.') := fun hc => h (by simp [hc])
    rw [List.cons_append, splitChAux, if_neg hx, ih (fun hm => h (by simp [hm]))]

lemma splitDot_two (l1 l2 : List Char) (h1 : '.' ∉ l1) (h2 : '.' ∉ l2) :
    splitDot (String.mk (l1 ++ '.' :: l2)) = [String.mk l1, String.mk l2] := by
  show (splitChAux (l1 ++ '.' :: l2)).map String.mk = _
  rw [splitChAux_append_dot _ _ h1, splitChAux_no_dot _ h2]
  rfl

/-! ## Helper lemmas: key stream bytes -/

lemma wordBytes_lt (w : Nat) : ∀ b ∈ wordBytes w, b < 256 := by
  intro b hb
  simp only [wordBytes, List.mem_cons, List.not_mem_nil, or_false] at hb
  rcases hb with h | h | h | h <;> rw [h] <;>
    exact Nat.lt_succ_of_le Nat.and_le_right

lemma sha256Bytes_lt (msg : List Nat) : ∀ b ∈ sha256Bytes msg, b < 256 := by
  intro b hb
  rw [sha256Bytes, List.mem_flatMap] at hb
  obtain ⟨w, _, hbw⟩ := hb
  exact wordBytes_lt w b hbw

lemma getD_lt_of_all {l : List Nat} {d : Nat} (hl : ∀ b ∈ l, b < 256) (hd : d < 256)
    (i : Nat) : l.getD i d < 256 := by
  rw [List.getD_eq_get?]
  cases h : l.get? i with
  | none => simpa using hd
  | some x => simpa using hl x (List.get?_mem h)

lemma generateKeyStream_lt (key : String) (salt : List Nat) (n : Nat) :
    ∀ k ∈ generateKeyStream key salt n, k < 256 := by
  intro k hk
  rw [generateKeyStream, List.mem_map] at hk
  obtain ⟨i, _, hik⟩ := hk
  exact hik ▸ getD_lt_of_all (sha256Bytes_lt _) (by omega) _

lemma generateKeyStream_length (key : String) (salt : List Nat) (n : Nat) :
    (generateKeyStream key salt n).length = n := by
  simp [generateKeyStream]

/-! ## Helper lemmas: cipher round inversion on buffers -/

lemma zipWith_encrypt_lt (bs ks : List Nat) :
    ∀ x ∈ List.zipWith encryptRound bs ks, x < 256 := by
  induction bs generalizing ks with
  | nil => simp
  | cons b rest ih =>
    intro x hx
    cases ks with
    | nil => cases hx
    | cons k krest =>
      cases hx with
      | head => exact encryptRound_lt b k
      | tail _ h => exact ih krest x h

lemma zipWith_round_inv (bs ks : List Nat) (hlen : bs.length ≤ ks.length)
    (hb : ∀ x ∈ bs, x < 256) (hk : ∀ k ∈ ks, k < 256) :
    List.zipWith decryptRound (List.zipWith encryptRound bs ks) ks = bs := by
  induction bs generalizing ks with
  | nil => simp
  | cons b rest ih =>
    cases ks with
    | nil => simp at hlen
    | cons k krest =>
      simp only [List.zipWith]
      rw [round_inv b k (hb b (by simp)) (hk k (by simp)),
        ih krest (by simpa using hlen) (fun x hx => hb x (by simp [hx]))
          (fun x hx => hk x (by simp [hx]))]

lemma zipWith_encrypt_length (bs ks : List Nat) (hlen : bs.length ≤ ks.length) :
    (List.zipWith encryptRound bs ks).length = bs.length := by
  rw [List.length_zipWith]
  omega

lemma iterate_round_inv (ks : List Nat) (hk : ∀ k ∈ ks, k < 256) :
    ∀ (n : Nat) (bs : List Nat), bs.length ≤ ks.length → (∀ x ∈ bs, x < 256) →
      (fun buf => List.zipWith decryptRound buf ks)^[n]
        ((fun buf => List.zipWith encryptRound buf ks)^[n] bs) = bs := by
  intro n
  induction n with
  | zero => intro bs _ _; rfl
  | succ m ih =>
    intro bs hlen hb
    rw [Function.iterate_succ_apply', Function.iterate_succ_apply]
    rw [ih (List.zipWith encryptRound bs ks)
        (by rw [zipWith_encrypt_length bs ks hlen]; exact hlen)
        (zipWith_encrypt_lt bs ks)]
    exact zipWith_round_inv bs ks hlen hb hk

lemma iterate_encrypt_length (ks : List Nat) (n : Nat) (bs : List Nat)
    (hlen : bs.length ≤ ks.length) :
    ((fun buf => List.zipWith encryptRound buf ks)^[n] bs).length = bs.length := by
  induction n generalizing bs with
  | zero => rfl
  | succ m ih =>
    rw [Function.iterate_succ_apply, ih _ (by rw [zipWith_encrypt_length bs ks hlen]; exact hlen),
      zipWith_encrypt_length bs ks hlen]

lemma iterate_encrypt_lt (ks : List Nat) (n : Nat) (bs : List Nat) (hb : ∀ x ∈ bs, x < 256)
    (hn : 0 < n) : ∀ x ∈ (fun buf => List.zipWith encryptRound buf ks)^[n] bs, x < 256 := by
  induction n generalizing bs with
  | zero => omega
  | succ m ih =>
    rw [Function.iterate_succ_apply]
    rcases Nat.eq_zero_or_pos m with hm | hm
    · subst hm; exact zipWith_encrypt_lt bs ks
    · exact ih _ (zipWith_encrypt_lt bs ks) hm

lemma hexDecode_mk (l : List Char) : hexDecode (String.mk l) = hexDecodeAux l := rfl

lemma advancedQHCDecrypt_eq (s s1 s2 : String) (h : splitDot s = [s1, s2]) (k : String) :
    advancedQHCDecrypt s k =
      .ok ((fun buf => List.zipWith decryptRound buf
        (generateKeyStream k (hexDecode s1) (hexDecode s2).length))^[4] (hexDecode s2)) := by
  unfold advancedQHCDecrypt
  rw [h]

/-- **C1.** For every plaintext byte sequence, every secret key and every
salt, decryption inverts encryption under the same key:
`advancedQHCDecrypt (advancedQHCEncrypt p k salt) k = .ok p`, where
encoding applies, for each of 4 fixed rounds and every byte position `i`,
XOR with `keyStream[i]`, rotate-left-by-1, then nibble-swap, and decoding
applies nibble-swap, rotate-right-by-1, then XOR with the same
`keyStream[i]` reused in all 4 rounds. -/
theorem advancedQHC_decrypt_inverts_encrypt (p salt : List Nat) (k : String)
    (hp : ∀ b ∈ p, b < 256) (hs : ∀ b ∈ salt, b < 256) :
    advancedQHCDecrypt (advancedQHCEncrypt p k salt) k = .ok p := by
  have hks_lt := generateKeyStream_lt k salt p.length
  have hks_len := generateKeyStream_length k salt p.length
  have hlen : p.length ≤ (generateKeyStream k salt p.length).length := le_of_eq hks_len.symm
  have hc_lt : ∀ x ∈ (fun buf =>
      List.zipWith encryptRound buf (generateKeyStream k salt p.length))^[4] p, x < 256 :=
    iterate_encrypt_lt _ 4 p hp (by omega)
  have hc_len : ((fun buf =>
      List.zipWith encryptRound buf (generateKeyStream k salt p.length))^[4] p).length =
      p.length :=
    iterate_encrypt_length _ 4 p hlen
  have hsplit : splitDot (advancedQHCEncrypt p k salt) =
      [String.mk (hexChars salt), String.mk (hexChars ((fun buf =>
        List.zipWith encryptRound buf (generateKeyStream k salt p.length))^[4] p))] :=
    splitDot_two _ _ (dot_not_mem_hexChars _) (dot_not_mem_hexChars _)
  rw [advancedQHCDecrypt_eq _ _ _ hsplit k, hexDecode_mk, hexDecode_mk,
    hexDecodeAux_hexChars salt hs, hexDecodeAux_hexChars _ hc_lt, hc_len,
    iterate_round_inv _ hks_lt 4 p hlen hp]

/-- Witness for C1: the scenario of §8 — `"hello"` (UTF-8 bytes) with key
`"k1"` and a concrete 8-byte salt round-trips. -/
theorem advancedQHC_decrypt_inverts_encrypt_witness :
    advancedQHCDecrypt
      (advancedQHCEncrypt [104, 101, 108, 108, 111] "k1" [1, 2, 3, 4, 5, 6, 7, 8]) "k1" =
      .ok [104, 101, 108, 108, 111] :=
  advancedQHC_decrypt_inverts_encrypt [104, 101, 108, 108, 111] [1, 2, 3, 4, 5, 6, 7, 8] "k1"
    (by decide) (by decide)

/-! ## Format-error lemmas (decrypt and signature parsing) -/

lemma advancedQHCDecrypt_error_of_len (s k : String) (h : (splitDot s).length ≠ 2) :
    advancedQHCDecrypt s k = .error "Invalid encrypted format" := by
  unfold advancedQHCDecrypt
  rcases hsp : splitDot s with _ | ⟨a, _ | ⟨b, _ | ⟨c, rest⟩⟩⟩
  · rfl
  · rfl
  · rw [hsp] at h; simp at h
  · rfl

lemma advancedQHCDecrypt_ok_of_len (s k : String) (h : (splitDot s).length = 2) :
    ∃ bs, advancedQHCDecrypt s k = .ok bs := by
  rcases hsp : splitDot s with _ | ⟨a, _ | ⟨b, _ | ⟨c, rest⟩⟩⟩
  · rw [hsp] at h; simp at h
  · rw [hsp] at h; simp at h
  · exact ⟨_, advancedQHCDecrypt_eq s a b hsp k⟩
  · rw [hsp] at h; simp at h

lemma advancedQDSGenerateSignature_error (enc k : String) (h : (splitDot enc).length ≠ 2) :
    advancedQDSGenerateSignature enc k = .error "Invalid encrypted format" := by
  unfold advancedQDSGenerateSignature
  rcases hsp : splitDot enc with _ | ⟨a, _ | ⟨b, _ | ⟨c, rest⟩⟩⟩
  · rfl
  · rfl
  · rw [hsp] at h; simp at h
  · rfl

/-- **C9 (amended).** `advancedQHCDecrypt` raises the `ValidationError`
(`"Invalid encrypted format"`) exactly when the input does not split into
two segments on the `"."` separator; whenever it does split into two
segments — hex-valid or not, Node's lenient hex decoder never throws —
decryption succeeds with some byte output.  (The separator-count check is
the first statement of the function, before any cipher work.) -/
theorem advancedQHCDecrypt_rejects_malformed (s k : String) :
    (advancedQHCDecrypt s k = .error "Invalid encrypted format" ↔ (splitDot s).length ≠ 2) ∧
    ((splitDot s).length = 2 → ∃ bs, advancedQHCDecrypt s k = .ok bs) := by
  constructor
  · constructor
    · intro herr hlen
      obtain ⟨bs, hbs⟩ := advancedQHCDecrypt_ok_of_len s k hlen
      rw [herr] at hbs
      cases hbs
    · exact advancedQHCDecrypt_error_of_len s k
  · exact advancedQHCDecrypt_ok_of_len s k

/-- Witness for C9 (amended): `"ab"` (one segment) is rejected with the
`ValidationError`; `"00.00"` (two segments) is decrypted. -/
theorem advancedQHCDecrypt_rejects_malformed_witness :
    ((splitDot "ab").length ≠ 2 ∧
      advancedQHCDecrypt "ab" "key" = .error "Invalid encrypted format") ∧
    ((splitDot "00.00").length = 2 ∧ ∃ bs, advancedQHCDecrypt "00.00" "key" = .ok bs) :=
  ⟨⟨by decide, (advancedQHCDecrypt_rejects_malformed "ab" "key").1.mpr (by decide)⟩,
   ⟨by decide, (advancedQHCDecrypt_rejects_malformed "00.00" "key").2 (by decide)⟩⟩

/-- Counterexample to C9 as stated: `"zz.zz"` is *not* two hex segments
separated by one separator, yet `advancedQHCDecrypt` does not reject it —
Node's `Buffer.from("zz", "hex")` silently decodes to an empty buffer and
decryption returns (empty) output instead of a `ValidationError`. -/
theorem advancedQHCDecrypt_accepts_nonhex_segments :
    hexPayloadWellFormed "zz.zz" = false ∧
    advancedQHCDecrypt "zz.zz" "key" = .ok [] := by
  exact ⟨rfl, rfl⟩

/-- **C3 (amended).** For every input on which parsing fails (the split
on `"."` does not yield exactly two parts), `advancedQDSVerifySignature`
propagates the thrown `"Invalid encrypted format"` error — the function
itself has no try/catch — and it is the verify route's caller
(`route.ts` lines 43-58) that converts the escaped exception into
verification failure (`false`). -/
theorem advancedQDSVerifySignature_parse_failure (enc sig k : String)
    (h : (splitDot enc).length ≠ 2) :
    advancedQDSVerifySignature enc sig k = .error "Invalid encrypted format" ∧
    routeIsAuthentic enc sig k = false := by
  have hg := advancedQDSGenerateSignature_error enc k h
  constructor
  · unfold advancedQDSVerifySignature
    rw [hg]
  · unfold routeIsAuthentic advancedQDSVerifySignature
    rw [hg]

/-- Witness for C3 (amended): the malformed payload `"abc"` makes the
verification function propagate the parse error, while the route-level
wrapper reports `false`. -/
theorem advancedQDSVerifySignature_parse_failure_witness :
    (splitDot "abc").length ≠ 2 ∧
    advancedQDSVerifySignature "abc" "x" "key" = .error "Invalid encrypted format" ∧
    routeIsAuthentic "abc" "x" "key" = false :=
  ⟨by decide,
   (advancedQDSVerifySignature_parse_failure "abc" "x" "key" (by decide)).1,
   (advancedQDSVerifySignature_parse_failure "abc" "x" "key" (by decide)).2⟩

/-- Counterexample to C3 as stated: on the malformed input `"abc"` the
function `advancedQDSVerifySignature` does **not** return `false` — the
parse failure escapes it as an exception. -/
theorem advancedQDSVerifySignature_exception_escapes :
    advancedQDSVerifySignature "abc" "00000000" "key" = .error "Invalid encrypted format" ∧
    advancedQDSVerifySignature "abc" "00000000" "key" ≠ .ok false := by
  refine ⟨rfl, ?_⟩
  intro h
  rw [show advancedQDSVerifySignature "abc" "00000000" "key" =
    .error "Invalid encrypted format" from rfl] at h
  cases h

/-! ## Signature shape and key-dependence lemmas -/

lemma getD_mem_of_default_mem {α : Type} {l : List α} {d : α} (hd : d ∈ l) (i : Nat) :
    l.getD i d ∈ l := by
  rw [List.getD_eq_get?]
  cases h : l.get? i with
  | none => simpa using hd
  | some x => simpa using List.get?_mem h

lemma base62Aux_chars (fuel n : Nat) : ∀ c ∈ base62Aux fuel n, c ∈ base62Chars := by
  induction fuel generalizing n with
  | zero => simp [base62Aux]
  | succ m ih =>
    intro c hc
    rw [base62Aux] at hc
    split at hc
    · cases hc
    · rcases List.mem_append.mp hc with h | h
      · exact ih _ c h
      · simp only [List.mem_singleton] at h
        exact h ▸ getD_mem_of_default_mem (by decide) _

lemma base62Encode_chars (v : Nat) : ∀ c ∈ (base62Encode v).data, c ∈ base62Chars := by
  unfold base62Encode
  split
  · intro c hc
    simp only [show ("0" : String).data = ['0'] from rfl, List.mem_singleton] at hc
    exact hc ▸ (by decide)
  · exact base62Aux_chars v v

lemma padTrunc8_length (s : String) : (padTrunc8 s).length = 8 := by
  show (padTrunc8 s).data.length = 8
  unfold padTrunc8
  show (((List.replicate (8 - s.length) '0') ++ s.data).take 8).length = 8
  rw [List.length_take, List.length_append, List.length_replicate]
  have : s.length = s.data.length := rfl
  omega

lemma padTrunc8_chars (s : String) (hs : ∀ c ∈ s.data, c ∈ base62Chars) :
    ∀ c ∈ (padTrunc8 s).data, c ∈ base62Chars := by
  intro c hc
  unfold padTrunc8 at hc
  replace hc := List.mem_of_mem_take (show c ∈ _ from hc)
  rcases List.mem_append.mp hc with h | h
  · rw [List.eq_of_mem_replicate h]
    decide
  · exact hs c h

lemma signSpec_length (salt cb : List Nat) (k : String) :
    (signSpec salt cb k).length = 8 :=
  padTrunc8_length _

lemma signSpec_chars (salt cb : List Nat) (k : String) :
    ∀ c ∈ (signSpec salt cb k).data, c ∈ base62Chars :=
  padTrunc8_chars _ (base62Encode_chars _)

lemma advancedQDSGenerateSignature_eq (enc k s1 s2 : String)
    (h : splitDot enc = [s1, s2]) (hc : hexDecode s2 ≠ []) :
    advancedQDSGenerateSignature enc k = .ok (signSpec (hexDecode s1) (hexDecode s2) k) := by
  unfold advancedQDSGenerateSignature signSpec
  rw [h]
  dsimp only
  rcases hcb : hexDecode s2 with _ | ⟨c0, rest⟩
  · exact absurd hcb hc
  · rfl

/-- **C4 (amended).** For every well-formed encoded payload whose
ciphertext segment decodes to a *non-empty* byte sequence, and every
secret key, `advancedQDSGenerateSignature` returns exactly the spec's
signature: the base-62 encoding (digits, lowercase, uppercase) of the
unbounded-precision sum `Σ ciphertext[i]*(i+1)` XORed with
`keyStream[0]`, left-padded with `'0'` and truncated to exactly 8
characters, all drawn from the 62-symbol alphabet.  (For an *empty*
ciphertext the source instead throws `TypeError`, because
`keyStream[0]` is `undefined` — see the counterexample.) -/
theorem advancedQDSGenerateSignature_shape (enc k s1 s2 : String)
    (h : splitDot enc = [s1, s2]) (hc : hexDecode s2 ≠ []) :
    advancedQDSGenerateSignature enc k = .ok (signSpec (hexDecode s1) (hexDecode s2) k) ∧
    (signSpec (hexDecode s1) (hexDecode s2) k).length = 8 ∧
    ∀ c ∈ (signSpec (hexDecode s1) (hexDecode s2) k).data, c ∈ base62Chars :=
  ⟨advancedQDSGenerateSignature_eq enc k s1 s2 h hc,
   signSpec_length _ _ _, signSpec_chars _ _ _⟩

/-- Witness for C4 (amended) at the payload `"00.ff"` with key `"k"`. -/
theorem advancedQDSGenerateSignature_shape_witness :
    advancedQDSGenerateSignature "00.ff" "k" =
      .ok (signSpec (hexDecode "00") (hexDecode "ff") "k") ∧
    (signSpec (hexDecode "00") (hexDecode "ff") "k").length = 8 ∧
    ∀ c ∈ (signSpec (hexDecode "00") (hexDecode "ff") "k").data, c ∈ base62Chars :=
  advancedQDSGenerateSignature_shape "00.ff" "k" "00" "ff" (by decide) (by decide)

/-- Counterexample to C4 as stated: the payload produced by encrypting
the *empty* plaintext is well formed (8-byte salt, 0-byte ciphertext),
yet `advancedQDSGenerateSignature` does not return an 8-character
signature for it — `keyStream[0]` is `undefined` and `BigInt(undefined)`
throws a `TypeError`. -/
theorem advancedQDSGenerateSignature_empty_cipher :
    advancedQHCEncrypt [] "key" (List.replicate 8 0) = "0000000000000000." ∧
    hexPayloadWellFormed "0000000000000000." = true ∧
    advancedQDSGenerateSignature "0000000000000000." "key" =
      .error "TypeError: Cannot convert undefined to a BigInt" := by
  exact ⟨rfl, rfl, rfl⟩

lemma generateKeyStream_getD_zero (key : String) (salt : List Nat) (n : Nat) (hn : 0 < n) :
    (generateKeyStream key salt n).getD 0 0 =
      (sha256Bytes (strBytes (key ++ hexEncode salt))).getD 0 0 := by
  unfold generateKeyStream
  obtain ⟨m, rfl⟩ : ∃ m, n = m + 1 := ⟨n - 1, by omega⟩
  rw [List.range_succ_eq_map]
  simp [Nat.zero_mod]

/-- **C10.** For every well-formed encoded payload with non-empty
ciphertext and any two secret keys whose derived digests
`SHA-256(k ++ hex(salt))` agree on the *first byte*,
`advancedQDSGenerateSignature` produces the identical signature under
both keys (the signature depends on the secret key only through
`keyStream[0]`), and `advancedQDSVerifySignature` therefore accepts a
signature generated under one key when verified under the other. -/
theorem signature_depends_only_on_first_digest_byte (enc k1 k2 s1 s2 : String)
    (h : splitDot enc = [s1, s2]) (hc : hexDecode s2 ≠ [])
    (hcol : (sha256Bytes (strBytes (k1 ++ hexEncode (hexDecode s1)))).getD 0 0 =
            (sha256Bytes (strBytes (k2 ++ hexEncode (hexDecode s1)))).getD 0 0) :
    advancedQDSGenerateSignature enc k1 = advancedQDSGenerateSignature enc k2 ∧
    ∀ sig, advancedQDSGenerateSignature enc k1 = .ok sig →
      advancedQDSVerifySignature enc sig k2 = .ok true := by
  have hpos : 0 < (hexDecode s2).length := List.length_pos.mpr hc
  have hsig : signSpec (hexDecode s1) (hexDecode s2) k1 =
      signSpec (hexDecode s1) (hexDecode s2) k2 := by
    unfold signSpec
    dsimp only
    rw [generateKeyStream_getD_zero _ _ _ hpos, generateKeyStream_getD_zero _ _ _ hpos, hcol]
  have hgen : advancedQDSGenerateSignature enc k1 = advancedQDSGenerateSignature enc k2 := by
    rw [advancedQDSGenerateSignature_eq enc k1 s1 s2 h hc,
      advancedQDSGenerateSignature_eq enc k2 s1 s2 h hc, hsig]
  refine ⟨hgen, fun sig hs => ?_⟩
  unfold advancedQDSVerifySignature
  rw [← hgen, hs]
  simp

/-- Witness for C10: keys `"k9"` and `"k16"` collide on the first byte of
`SHA-256(key ++ "00")` (both 48), so the payload `"00.ff"` is signed
identically under either key and cross-verification succeeds. -/
theorem signature_depends_only_on_first_digest_byte_witness :
    advancedQDSGenerateSignature "00.ff" "k9" = advancedQDSGenerateSignature "00.ff" "k16" ∧
    ∀ sig, advancedQDSGenerateSignature "00.ff" "k9" = .ok sig →
      advancedQDSVerifySignature "00.ff" sig "k16" = .ok true :=
  signature_depends_only_on_first_digest_byte "00.ff" "k9" "k16" "00" "ff"
    (by decide) (by decide) (by rfl)

/-! ## Mining lemmas -/

lemma mineAux_ok (bd : BlockData) (d : Nat) :
    ∀ fuel start n h, mineAux bd d fuel start = .ok (n, h) →
      (targetZeros d).isPrefixOf h.data = true ∧ h = calculateBlockHash bd n := by
  intro fuel
  induction fuel with
  | zero =>
    intro start n h heq
    simp [mineAux] at heq
  | succ m ih =>
    intro start n h heq
    rw [mineAux] at heq
    by_cases hcond : (targetZeros d).isPrefixOf (calculateBlockHash bd start).data = true
    · rw [if_pos hcond] at heq
      obtain ⟨rfl, rfl⟩ : start = n ∧ calculateBlockHash bd start = h := by
        have := Except.ok.inj heq
        exact ⟨congrArg Prod.fst this, congrArg Prod.snd this⟩
      exact ⟨hcond, rfl⟩
    · rw [if_neg hcond] at heq
      exact ih _ _ _ heq

lemma mineAux_char (bd : BlockData) (d : Nat) : ∀ fuel start,
    (∃ n, start ≤ n ∧ n < start + fuel ∧
      (targetZeros d).isPrefixOf (calculateBlockHash bd n).data = true ∧
      (∀ m, start ≤ m → m < n →
        ¬((targetZeros d).isPrefixOf (calculateBlockHash bd m).data = true)) ∧
      mineAux bd d fuel start = .ok (n, calculateBlockHash bd n)) ∨
    ((∀ n, start ≤ n → n < start + fuel →
        ¬((targetZeros d).isPrefixOf (calculateBlockHash bd n).data = true)) ∧
      mineAux bd d fuel start = .error "Mining difficulty likely too high or error in logic.") := by
  intro fuel
  induction fuel with
  | zero =>
    intro start
    right
    exact ⟨fun n h1 h2 => absurd (Nat.lt_of_le_of_lt h1 h2) (by omega), rfl⟩
  | succ m ih =>
    intro start
    by_cases hcond : (targetZeros d).isPrefixOf (calculateBlockHash bd start).data = true
    · left
      refine ⟨start, le_refl _, by omega, hcond, fun x h1 h2 => absurd (Nat.lt_of_le_of_lt h1 h2)
        (by omega), ?_⟩
      rw [mineAux]
      rw [if_pos hcond]
    · have hstep : mineAux bd d (m + 1) start = mineAux bd d m (start + 1) := by
        rw [mineAux]
        rw [if_neg hcond]
      rcases ih (start + 1) with ⟨n, h1, h2, h3, h4, h5⟩ | ⟨hall, h5⟩
      · left
        refine ⟨n, by omega, by omega, h3, fun x hx1 hx2 => ?_, hstep.trans h5⟩
        rcases Nat.eq_or_lt_of_le hx1 with heq | hlt
        · exact heq ▸ hcond
        · exact h4 x hlt hx2
      · right
        refine ⟨fun n hn1 hn2 => ?_, hstep.trans h5⟩
        rcases Nat.eq_or_lt_of_le hn1 with heq | hlt
        · exact heq ▸ hcond
        · exact hall n hlt (by omega)

/-- **C5.** Whenever `mineBlock` returns a pair `(nonce, hash)`, the hash
starts with `difficulty` zero characters and equals the SHA-256 hex
digest of the plain string concatenation of `timestamp`,
`product_details_hash`, `encrypted_data_salt`, `signature`,
`previous_block_hash` and `nonce`; in particular, with difficulty 0 the
first nonce tried (0) is immediately accepted. -/
theorem mineBlock_meets_difficulty :
    (∀ (bd : BlockData) (d n : Nat) (h : String), mineBlock bd d = .ok (n, h) →
      (targetZeros d).isPrefixOf h.data = true ∧
      h = calculateHash (blockDataToString bd n)) ∧
    (∀ bd : BlockData, mineBlock bd 0 = .ok (0, calculateBlockHash bd 0)) := by
  constructor
  · exact fun bd d n h heq => mineAux_ok bd d _ _ _ _ heq
  · intro bd
    show mineAux bd 0 (10000000 + 1) 0 = _
    rw [mineAux]
    have hp : (targetZeros 0).isPrefixOf (calculateBlockHash bd 0).data = true := rfl
    rw [if_pos hp]

/-- Witness for C5: mining the all-empty block data at difficulty 0
returns nonce 0 with the SHA-256 digest of `"00"`. -/
theorem mineBlock_meets_difficulty_witness :
    (targetZeros 0).isPrefixOf
      ("f1534392279bddbf9d43dde8701cb5be14b82f76ec6607bf8d6ad557f60f304e" : String).data = true ∧
    ("f1534392279bddbf9d43dde8701cb5be14b82f76ec6607bf8d6ad557f60f304e" : String) =
      calculateHash (blockDataToString ⟨0, "", "", "", ""⟩ 0) :=
  mineBlock_meets_difficulty.1 ⟨0, "", "", "", ""⟩ 0 0
    "f1534392279bddbf9d43dde8701cb5be14b82f76ec6607bf8d6ad557f60f304e" (by rfl)

/-- **C6.** `mineBlock` always terminates: it tries nonces `0, 1, 2, …`
in increasing order and either returns at the *first* nonce whose hash
meets the difficulty target, or fails with the mining-exhausted error
once the fixed attempt bound is exceeded (nonces `0 … 10000000` tried);
`mineBlock` is a total function, so it never loops forever. -/
theorem mineBlock_terminates (bd : BlockData) (d : Nat) :
    (∃ n, n ≤ 10000000 ∧
      (targetZeros d).isPrefixOf (calculateBlockHash bd n).data = true ∧
      (∀ m < n, ¬((targetZeros d).isPrefixOf (calculateBlockHash bd m).data = true)) ∧
      mineBlock bd d = .ok (n, calculateBlockHash bd n)) ∨
    ((∀ n ≤ 10000000, ¬((targetZeros d).isPrefixOf (calculateBlockHash bd n).data = true)) ∧
      mineBlock bd d = .error "Mining difficulty likely too high or error in logic.") := by
  rcases mineAux_char bd d 10000001 0 with ⟨n, h1, h2, h3, h4, h5⟩ | ⟨hall, h5⟩
  · exact Or.inl ⟨n, by omega, h3, fun m hm => h4 m (by omega) hm, h5⟩
  · exact Or.inr ⟨fun n hn => hall n (by omega) (by omega), h5⟩

/-! ## Ledger chain integrity (C7) -/

lemma prevHashOf_eq_getD (l : List LedgerBlock) (hl : l ≠ []) :
    prevHashOf l = (l.getD (l.length - 1) default).current_block_hash := by
  have hpos : 0 < l.length := List.length_pos.mpr hl
  have hlt : l.length - 1 < l.length := by omega
  unfold prevHashOf
  rw [List.getLast?_eq_getElem?, List.getElem?_eq_getElem hlt]
  rw [List.getD_eq_get?, List.get?_eq_getElem?, List.getElem?_eq_getElem hlt]
  rfl

/-- **C7.** In every ledger reachable by the generate route's append
step — whose new block takes `previous_block_hash` from the chain tip's
`current_block_hash` read at append time, or the genesis value of 64
`'0'` characters when the ledger is empty — every non-first block's
`previous_block_hash` equals its predecessor's `current_block_hash`. -/
theorem ledger_chain_integrity (d : Nat) (l : List LedgerBlock) (hr : LedgerReach d l) :
    ∀ i, i + 1 < l.length →
      (l.getD (i + 1) default).previous_block_hash =
      (l.getD i default).current_block_hash := by
  induction hr with
  | nil => intro i hi; simp at hi
  | append ledger ts pdh salt sig nonce hash hreach hmine ih =>
    intro i hi
    rw [List.length_append, List.length_singleton] at hi
    rcases Nat.lt_or_ge (i + 1) ledger.length with hlt | hge
    · rw [List.getD_append _ _ _ _ hlt, List.getD_append _ _ _ _ (by omega)]
      exact ih i hlt
    · have hieq : i + 1 = ledger.length := by omega
      have hne : ledger ≠ [] := by
        intro hnil
        rw [hnil] at hieq
        simp at hieq
      rw [List.getD_append_right _ _ _ _ (le_of_eq hieq.symm), hieq, Nat.sub_self,
        List.getD_append _ _ _ _ (by omega)]
      show prevHashOf ledger = _
      rw [prevHashOf_eq_getD ledger hne]
      have hi2 : ledger.length - 1 = i := by omega
      rw [hi2]

/-- Witness for C7: a concrete two-block chain mined at difficulty 0;
the second block's `previous_block_hash` is the first block's hash. -/
theorem ledger_chain_integrity_witness :
    (([⟨0, "", "", "", genesisHash, 0,
        "d5f28bdae4731c38abc064bc702233257035309462dbeaa891f9e8f33df6d78e", false, none⟩,
       ⟨0, "", "", "", "d5f28bdae4731c38abc064bc702233257035309462dbeaa891f9e8f33df6d78e", 0,
        "df955b6f2ee7aadb29b0af30b28cbde32b217a59c6c0c13d773fe6f172a99dac", false, none⟩] :
      List LedgerBlock).getD 1 default).previous_block_hash =
    (([⟨0, "", "", "", genesisHash, 0,
        "d5f28bdae4731c38abc064bc702233257035309462dbeaa891f9e8f33df6d78e", false, none⟩,
       ⟨0, "", "", "", "d5f28bdae4731c38abc064bc702233257035309462dbeaa891f9e8f33df6d78e", 0,
        "df955b6f2ee7aadb29b0af30b28cbde32b217a59c6c0c13d773fe6f172a99dac", false, none⟩] :
      List LedgerBlock).getD 0 default).current_block_hash :=
  ledger_chain_integrity 0 _
    (LedgerReach.append
      [⟨0, "", "", "", genesisHash, 0,
        "d5f28bdae4731c38abc064bc702233257035309462dbeaa891f9e8f33df6d78e", false, none⟩]
      0 "" "" "" 0 "df955b6f2ee7aadb29b0af30b28cbde32b217a59c6c0c13d773fe6f172a99dac"
      (LedgerReach.append [] 0 "" "" "" 0
        "d5f28bdae4731c38abc064bc702233257035309462dbeaa891f9e8f33df6d78e"
        LedgerReach.nil (by rfl))
      (by rfl))
    0 (by decide)

/-! ## Verification-status monotonicity (C8) -/

lemma statesOf_shape (b : LedgerBlock) (ts : List Nat) :
    ∃ rest, statesOf b ts = b :: rest := by
  cases ts <;> exact ⟨_, rfl⟩

lemma traceSteps_statesOf_cons (b : LedgerBlock) (t : Nat) (ts : List Nat) :
    traceSteps (statesOf b (t :: ts)) =
      (b, markVerified t b) :: traceSteps (statesOf (markVerified t b) ts) := by
  show traceSteps (b :: statesOf (markVerified t b) ts) = _
  obtain ⟨rest, hrest⟩ := statesOf_shape (markVerified t b) ts
  rw [hrest]
  rfl

lemma mem_statesOf_true (b : LedgerBlock) (hb : b.isVerified = true) (ts : List Nat) :
    ∀ s ∈ statesOf b ts, s.isVerified = true := by
  induction ts generalizing b with
  | nil =>
    intro s hs
    simp only [statesOf, List.mem_singleton] at hs
    rw [hs]
    exact hb
  | cons t ts ih =>
    intro s hs
    rw [statesOf] at hs
    rcases List.mem_cons.mp hs with rfl | hs
    · exact hb
    · exact ih (markVerified t b) rfl s hs

lemma traceSteps_mem (l : List LedgerBlock) (p : LedgerBlock × LedgerBlock)
    (hp : p ∈ traceSteps l) : p.1 ∈ l ∧ p.2 ∈ l := by
  unfold traceSteps at hp
  obtain ⟨h1, h2⟩ := List.of_mem_zip hp
  exact ⟨h1, (List.tail_sublist l).subset h2⟩

lemma no_unverify (b : LedgerBlock) (ts : List Nat) :
    ∀ p ∈ traceSteps (statesOf b ts), ¬(p.1.isVerified = true ∧ p.2.isVerified = false) := by
  induction ts generalizing b with
  | nil =>
    intro p hp
    simp [statesOf, traceSteps] at hp
  | cons t ts ih =>
    intro p hp
    rw [traceSteps_statesOf_cons] at hp
    rcases List.mem_cons.mp hp with rfl | hp
    · simp [markVerified]
    · exact ih (markVerified t b) p hp

lemma countP_flips_zero (b : LedgerBlock) (hb : b.isVerified = true) (ts : List Nat) :
    (traceSteps (statesOf b ts)).countP (fun p => !p.1.isVerified && p.2.isVerified) = 0 := by
  rw [List.countP_eq_zero]
  intro p hp
  have h1 : p.1.isVerified = true :=
    mem_statesOf_true b hb ts p.1 (traceSteps_mem _ p hp).1
  simp [h1]

lemma flip_is_write (b : LedgerBlock) (ts : List Nat) :
    ∀ p ∈ traceSteps (statesOf b ts), (!p.1.isVerified && p.2.isVerified) = true →
      ∃ t ∈ ts, p.2 = markVerified t p.1 := by
  induction ts generalizing b with
  | nil =>
    intro p hp
    simp [statesOf, traceSteps] at hp
  | cons t ts ih =>
    intro p hp hflip
    rw [traceSteps_statesOf_cons] at hp
    rcases List.mem_cons.mp hp with rfl | hp
    · exact ⟨t, by simp, rfl⟩
    · obtain ⟨u, hu, hw⟩ := ih (markVerified t b) p hp hflip
      exact ⟨u, by simp [hu], hw⟩

/-- **C8.** Along every trace of ledger writes (the only write to
`isVerified` in the system is the verify route's
`update({isVerified: true, verifiedAt: now})`): starting from an
unverified block, `isVerified` never transitions from `true` back to
`false` (no operation clears it), it transitions from `false` to `true`
exactly once when at least one verification write occurs (and zero times
otherwise), and the flipping step is exactly a `markVerified` write,
which sets `verifiedAt` together with `isVerified`. -/
theorem isVerified_monotone (b0 : LedgerBlock) (ts : List Nat)
    (h0 : b0.isVerified = false) :
    (∀ p ∈ traceSteps (statesOf b0 ts), ¬(p.1.isVerified = true ∧ p.2.isVerified = false)) ∧
    ((traceSteps (statesOf b0 ts)).countP (fun p => !p.1.isVerified && p.2.isVerified) =
      if ts.isEmpty then 0 else 1) ∧
    (∀ p ∈ traceSteps (statesOf b0 ts), (!p.1.isVerified && p.2.isVerified) = true →
      ∃ t ∈ ts, p.2 = markVerified t p.1) := by
  refine ⟨no_unverify b0 ts, ?_, flip_is_write b0 ts⟩
  cases ts with
  | nil => rfl
  | cons t ts =>
    rw [traceSteps_statesOf_cons, List.countP_cons, countP_flips_zero (markVerified t b0) rfl ts]
    simp [h0, markVerified]

/-- Witness for C8: a freshly issued (unverified) block and a single
verification write at time 5. -/
theorem isVerified_monotone_witness :
    (∀ p ∈ traceSteps (statesOf default [5]),
      ¬(p.1.isVerified = true ∧ p.2.isVerified = false)) ∧
    ((traceSteps (statesOf default [5])).countP
        (fun p => !p.1.isVerified && p.2.isVerified) =
      if ([5] : List Nat).isEmpty then 0 else 1) ∧
    (∀ p ∈ traceSteps (statesOf default [5]), (!p.1.isVerified && p.2.isVerified) = true →
      ∃ t ∈ ([5] : List Nat), p.2 = markVerified t p.1) :=
  isVerified_monotone default [5] (by decide)

/-! ## The verification race (C2) -/

/-- **C2 is violated by the code** (`route.ts` performs `findUnique`
followed by an unconditional `update` keyed by id, not a single atomic
conditional update): under the interleaving read-A, read-B, write-A,
write-B of two concurrent verification requests for the same unverified
salt, *both* requests return the first-verification outcome, and the
second write silently overwrites `verifiedAt` (final value is request
B's clock, 2, although A also reported a first verification). -/
theorem verify_race_double_first :
    (default : LedgerBlock).isVerified = false ∧
    (runSched 1 2 [false, true, false, true] default .start .start).2.1.result =
      some VerifyOutcome.FirstVerification ∧
    (runSched 1 2 [false, true, false, true] default .start .start).2.2.result =
      some VerifyOutcome.FirstVerification ∧
    (runSched 1 2 [false, true, false, true] default .start .start).1.verifiedAt = some 2 := by
  exact ⟨rfl, rfl, rfl, rfl⟩
